import Mathlib

/-!
Shallow embedding of the key-transparency publish/witness protocol
(asonnino/key-transparency). The definitions below are translated from the
Rust sources:

* `src/messages/src/publish.rs` — message types, their verification;
* `src/messages/src/lib.rs` — wire enums;
* `src/witness/src/core_handler.rs` — the witness safety state machine;
* `src/witness/src/sync_helper.rs` — the certificate sync responder;
* `src/idp/src/aggregator.rs` — the vote aggregator;
* `src/idp/src/batcher.rs` — the client-request decoder;
* `src/storage/src/lib.rs` — the rocksdb wrapper.

Opaque 32/64-byte cryptographic values (digests, public keys, signatures)
are modelled as natural numbers. The cryptographic primitives themselves
(the `crypto` crate is an external collaborator of the repository) are
bundled into a `CryptoOracle` parameter: a hash over `(root, sequence
number)` standing for `H(root ‖ seq_le)`, a signature verifier and a
deterministic signer. Nothing below depends on any property of these
functions beyond what the code itself assumes.
-/

set_option maxRecDepth 16384

namespace KeyTransparency

/-- External cryptographic primitives (the `crypto` crate, out of scope per
the specification): the message digest `H(root ‖ seq_le)` used by
`PublishMessage::digest`, signature verification, and deterministic
signing keyed by the signer public key. -/
structure CryptoOracle where
  hash : Nat → Nat → Nat
  sigVerify : Nat → Nat → Nat → Bool
  sign : Nat → Nat → Nat

/-- Modelled from the spec: the `config` crate (component C2, Committee) is
not under `src/`. Per spec §3/§4.1 a committee is one IdP identity plus a
mapping from witness public key to voting power (addresses omitted: they
play no role in the verified logic). -/
structure Committee where
  identityProvider : Nat
  witnesses : List (Nat × Nat)
deriving DecidableEq

/-- `Committee::voting_power(pk) → u32`, `0` if unknown (spec §4.1). -/
def Committee.votingPower (c : Committee) (pk : Nat) : Nat :=
  ((c.witnesses.find? (fun e => e.1 == pk)).map (fun e => e.2)).getD 0

/-- Total voting power of the committee. -/
def Committee.totalPower (c : Committee) : Nat :=
  (c.witnesses.map (fun e => e.2)).sum

/-- Modelled from the spec: `quorum_threshold = floor(2*total_power/3) + 1`
(spec §3, Committee invariant; Byzantine quorum). -/
def Committee.quorumThreshold (c : Committee) : Nat :=
  2 * c.totalPower / 3 + 1

/-- `PublishNotification` (src/messages/src/publish.rs). -/
structure PublishNotification where
  root : Nat
  proof : Nat
  sequence_number : Nat
  id : Nat
  signature : Nat
deriving DecidableEq

/-- `PublishVote` (src/messages/src/publish.rs). -/
structure PublishVote where
  root : Nat
  sequence_number : Nat
  author : Nat
  signature : Nat
deriving DecidableEq

/-- `PublishCertificate` (src/messages/src/publish.rs). -/
structure PublishCertificate where
  root : Nat
  sequence_number : Nat
  votes : List (Nat × Nat)
deriving DecidableEq

/-- `MessageError` (src/messages/src/error.rs); the `String` payload of
`InvalidSignature` is dropped. -/
inductive MessageError where
  | MalformedNotificationId (id : Nat)
  | InvalidSignature
  | UnknownWitness (pk : Nat)
  | WitnessReuse (pk : Nat)
  | CertificateRequiresQuorum
deriving DecidableEq

/-- `WitnessError` (src/messages/src/error.rs). -/
inductive WitnessError where
  | MessageError (e : MessageError)
  | UnexpectedSequenceNumber (expected got : Nat)
  | ConflictingNotification (lockRoot receivedRoot : Nat)
  | MissingEarlierCertificates (current : Nat)
deriving DecidableEq

/-- `IdpError` (src/messages): the variants used by the aggregator and the
batcher. -/
inductive IdpError where
  | UnexpectedVote (expected received : Nat)
  | MessageError (e : MessageError)
  | InvalidRequest
deriving DecidableEq

/-- The Rust `PartialEq` implementation for `PublishVote`
(src/messages/src/publish.rs lines 144-151): compares `root`,
`sequence_number` and `author` but not `signature`. -/
def PublishVote.beqRust (v w : PublishVote) : Bool :=
  v.root == w.root && v.sequence_number == w.sequence_number && v.author == w.author

/-- `PublishNotification::verify` (src/messages/src/publish.rs lines
99-115): recompute the id, check the IdP signature; AKD proof verification
is a stub in the source (`let _ = previous_root`), so the unused
`previous_root` argument is omitted (the call in
src/witness/src/core_handler.rs passes only the committee). -/
def PublishNotification.verify (co : CryptoOracle) (c : Committee)
    (n : PublishNotification) : Except MessageError Unit :=
  if co.hash n.root n.sequence_number ≠ n.id then
    .error (.MalformedNotificationId n.id)
  else if co.sigVerify n.id c.identityProvider n.signature then
    .ok ()
  else
    .error .InvalidSignature

/-- `PublishVote::new(notification, keypair)` (src/messages/src/publish.rs
lines 164-176): copy root and sequence number, set the author, sign the
digest. -/
def PublishVote.new (co : CryptoOracle) (n : PublishNotification)
    (author : Nat) : PublishVote :=
  { root := n.root
    sequence_number := n.sequence_number
    author := author
    signature := co.sign (co.hash n.root n.sequence_number) author }

/-- `PublishVote::verify` (src/messages/src/publish.rs lines 178-191):
voting rights, then signature over the digest. -/
def PublishVote.verify (co : CryptoOracle) (c : Committee)
    (v : PublishVote) : Except MessageError Unit :=
  if c.votingPower v.author = 0 then
    .error (.UnknownWitness v.author)
  else if co.sigVerify (co.hash v.root v.sequence_number) v.author v.signature then
    .ok ()
  else
    .error .InvalidSignature

/-- The author/weight scan of `PublishCertificate::verify`
(src/messages/src/publish.rs lines 230-238): no repeated author, every
author in the committee, accumulate voting power. -/
def certScanVotes (c : Committee) (used : List Nat) (weight : Nat) :
    List (Nat × Nat) → Except MessageError Nat
  | [] => .ok weight
  | (name, _) :: rest =>
    if name ∈ used then .error (.WitnessReuse name)
    else if c.votingPower name = 0 then .error (.UnknownWitness name)
    else certScanVotes c (name :: used) (weight + c.votingPower name) rest

/-- `PublishCertificate::verify` (src/messages/src/publish.rs lines
226-247): distinct known authors, quorum weight, then
`Signature::verify_batch` over the shared digest (modelled as verifying
each pair). -/
def PublishCertificate.verify (co : CryptoOracle) (c : Committee)
    (cert : PublishCertificate) : Except MessageError Unit :=
  match certScanVotes c [] 0 cert.votes with
  | .error e => .error e
  | .ok weight =>
    if weight < c.quorumThreshold then .error .CertificateRequiresQuorum
    else if cert.votes.all
        (fun e => co.sigVerify (co.hash cert.root cert.sequence_number) e.1 e.2) then
      .ok ()
    else .error .InvalidSignature

/-- A byte string (each entry intended `< 256`). -/
abbrev Bytes := List Nat

/-- The rocksdb wrapper `Storage` (src/storage/src/lib.rs), modelled as an
association list; `write` overwrites the key. -/
abbrev Storage := List (Bytes × Bytes)

/-- `Storage::read` (src/storage/src/lib.rs lines 17-20). -/
def Storage.read (s : Storage) (key : Bytes) : Option Bytes :=
  (s.find? (fun e => e.1 == key)).map (fun e => e.2)

/-- `Storage::write` (src/storage/src/lib.rs lines 22-25): `put` replaces
any previous value under the key. -/
def Storage.write (s : Storage) (key value : Bytes) : Storage :=
  (key, value) :: s.filter (fun e => e.1 != key)

/-- Little-endian byte encoding on `k` bytes (`u64::to_le_bytes` for
`k = 8`). -/
def leBytes (k n : Nat) : Bytes :=
  (List.range k).map (fun i => n / 256 ^ i % 256)

/-- Little-endian byte decoding (`u64::from_le_bytes`). -/
def fromLeBytes (bs : Bytes) : Nat :=
  bs.foldr (fun b acc => b + 256 * acc) 0

/-- `bincode::serialize` of a `PublishVote`: 32-byte root, 8-byte
little-endian sequence number, 32-byte author key, 64-byte signature, in
field order (136 bytes total). -/
def serializeVote (v : PublishVote) : Bytes :=
  leBytes 32 v.root ++ leBytes 8 v.sequence_number
    ++ leBytes 32 v.author ++ leBytes 64 v.signature

/-- `bincode::deserialize` of a `PublishVote`: requires exactly the 136
bytes produced by `serializeVote` (in particular it fails on the empty
byte string, as bincode does). -/
def deserializeVote (bs : Bytes) : Option PublishVote :=
  if bs.length = 136 then
    some { root := fromLeBytes (bs.take 32)
           sequence_number := fromLeBytes ((bs.drop 32).take 8)
           author := fromLeBytes ((bs.drop 40).take 32)
           signature := fromLeBytes (bs.drop 72) }
  else none

/-- `STORE_SEQ_ADDR = [0u8; 32]` (src/witness/src/core_handler.rs). -/
def STORE_SEQ_ADDR : Bytes := List.replicate 32 0

/-- `STORE_LOCK_ADDR = [1u8; 32]` (src/witness/src/core_handler.rs). -/
def STORE_LOCK_ADDR : Bytes := List.replicate 32 1

/-- The in-memory state of the witness `PublishHandler`
(src/witness/src/core_handler.rs lines 30-33). -/
structure HandlerState where
  sequenceNumber : Nat
  lock : Option PublishVote
deriving DecidableEq

/-- `PublishHandler::make_vote` (src/witness/src/core_handler.rs lines
76-103): verify the notification, check the sequence number, then either
re-issue the locked vote (same root), refuse a conflicting root, or sign a
fresh vote. Pure in the source (takes `&self`). -/
def makeVote (co : CryptoOracle) (cmt : Committee) (author : Nat)
    (st : HandlerState) (n : PublishNotification) :
    Except WitnessError PublishVote :=
  match n.verify co cmt with
  | .error e => .error (.MessageError e)
  | .ok () =>
    if st.sequenceNumber ≠ n.sequence_number then
      .error (.UnexpectedSequenceNumber st.sequenceNumber n.sequence_number)
    else
      match st.lock with
      | some vote =>
        if vote.root = n.root then .ok vote
        else .error (.ConflictingNotification vote.root n.root)
      | none => .ok (PublishVote.new co n author)

/-- The notification branch of `PublishHandler::run`
(src/witness/src/core_handler.rs lines 123-146): on success register the
lock in memory and persist the serialized vote before replying. The reply
transmission itself is network glue, stubbed (`unimplemented!`) in this
snapshot of the source; the produced result value is returned. -/
def handleNotification (co : CryptoOracle) (cmt : Committee)
    (author : Nat) (st : HandlerState) (secure : Storage)
    (n : PublishNotification) :
    HandlerState × Storage × Except WitnessError PublishVote :=
  match makeVote co cmt author st n with
  | .error e => (st, secure, .error e)
  | .ok vote =>
    ({ st with lock := some vote },
     secure.write STORE_LOCK_ADDR (serializeVote vote),
     .ok vote)

/-- `PublishHandler::process_certificate` (src/witness/src/core_handler.rs
lines 106-116): verify the certificate, then ensure no earlier
certificates are missing. Pure in the source (takes `&self`). -/
def processCertificate (co : CryptoOracle) (cmt : Committee)
    (st : HandlerState) (c : PublishCertificate) :
    Except WitnessError Unit :=
  match c.verify co cmt with
  | .error e => .error (.MessageError e)
  | .ok () =>
    if st.sequenceNumber ≥ c.sequence_number then .ok ()
    else .error (.MissingEarlierCertificates st.sequenceNumber)

/-- The certificate branch of `PublishHandler::run`
(src/witness/src/core_handler.rs lines 149-179): on success, if the
certificate is for the current sequence number, advance it (persisting the
new value), clear the lock in memory and persist the cleared lock as the
empty byte string (`&Vec::default()`); otherwise the certificate was
already processed and nothing changes. -/
def handleCertificate (co : CryptoOracle) (cmt : Committee)
    (st : HandlerState) (secure : Storage) (c : PublishCertificate) :
    HandlerState × Storage × Except WitnessError Unit :=
  match processCertificate co cmt st c with
  | .error e => (st, secure, .error e)
  | .ok () =>
    if st.sequenceNumber = c.sequence_number then
      ({ sequenceNumber := st.sequenceNumber + 1, lock := none },
       (secure.write STORE_SEQ_ADDR (leBytes 8 (st.sequenceNumber + 1))).write
         STORE_LOCK_ADDR [],
       .ok ())
    else (st, secure, .ok ())

/-- The startup reads of `PublishHandler::spawn`
(src/witness/src/core_handler.rs lines 46-58): the sequence number is read
from `STORE_SEQ_ADDR` (default `0` when absent, panic unless exactly 8
bytes), the lock from `STORE_LOCK_ADDR` (absent means no lock; any present
bytes are deserialized as a vote, panicking on failure). `none` models a
panic during startup. -/
def loadState (secure : Storage) : Option HandlerState :=
  let seqOpt : Option Nat :=
    match secure.read STORE_SEQ_ADDR with
    | none => some 0
    | some bytes => if bytes.length = 8 then some (fromLeBytes bytes) else none
  let lockOpt : Option (Option PublishVote) :=
    match secure.read STORE_LOCK_ADDR with
    | none => some none
    | some bytes =>
      match deserializeVote bytes with
      | some v => some (some v)
      | none => none
  match seqOpt, lockOpt with
  | some s, some l => some { sequenceNumber := s, lock := l }
  | _, _ => none

/-- `messages::sync::State` (src/messages/src/sync.rs). -/
structure State where
  root : Nat
  sequence_number : Nat
  lock : Option PublishVote
deriving DecidableEq

/-- `WitnessToIdPMessage` (src/messages/src/lib.rs lines 30-35): the three
reply variants a witness can send. -/
inductive WitnessToIdPMessage where
  | PublishVote (r : Except WitnessError PublishVote)
  | State (r : Except WitnessError State)
  | PublishCertificateResponse (bytes : Bytes)

/-- One iteration of `SyncHelper::run` (src/witness/src/sync_helper.rs
lines 32-48) on a `PublishCertificateQuery` for sequence number `seq`:
read the audit storage at `seq.to_le_bytes()`; if a serialized certificate
is present, reply `PublishCertificateResponse` with the stored bytes;
otherwise the loop sends nothing (`none` = no reply). -/
def syncStep (audit : Storage) (seq : Nat) :
    Option WitnessToIdPMessage :=
  match audit.read (leBytes 8 seq) with
  | some serializedCertificate =>
    some (.PublishCertificateResponse serializedCertificate)
  | none => none

/-- The certificate branch of the witness at the node level
(src/witness/src/lib.rs wiring): the `PublishHandler` owns only the secure
storage; the audit storage is owned by the `SyncHelper` and is not touched
by certificate processing in this source. -/
def witnessStepCertificate (co : CryptoOracle) (cmt : Committee)
    (st : HandlerState) (secure audit : Storage) (c : PublishCertificate) :
    HandlerState × Storage × Storage × Except WitnessError Unit :=
  let r := handleCertificate co cmt st secure c
  (r.1, r.2.1, audit, r.2.2)

/-- `Aggregator` (src/idp/src/aggregator.rs lines 9-20); the `used` set is
modelled as a duplicate-free list. -/
structure Aggregator where
  committee : Committee
  root : Nat
  weight : Nat
  votes : List (Nat × Nat)
  used : List Nat
deriving DecidableEq

/-- `Aggregator::new` (src/idp/src/aggregator.rs lines 23-32). -/
def Aggregator.new (c : Committee) (root : Nat) : Aggregator :=
  { committee := c, root := root, weight := 0, votes := [], used := [] }

/-- `Aggregator::reset` (src/idp/src/aggregator.rs lines 34-40). -/
def Aggregator.reset (s : Aggregator) (root : Nat) : Aggregator :=
  { s with root := root, weight := 0, votes := [], used := [] }

/-- `Aggregator::append` (src/idp/src/aggregator.rs lines 43-83): check the
root, the committee membership, the freshness of the author (inserting it
into `used` — the insertion persists even if the later signature check
fails), verify the vote, then accumulate it; when the accumulated weight
reaches the quorum threshold, zero the weight (so that a quorum is only
reached once) and emit a certificate over the collected votes. Returns the
mutated aggregator together with the result. -/
def Aggregator.append (co : CryptoOracle) (s : Aggregator)
    (v : PublishVote) : Aggregator × Except IdpError (Option PublishCertificate) :=
  if s.root ≠ v.root then
    (s, .error (.UnexpectedVote s.root v.root))
  else if s.committee.votingPower v.author = 0 then
    (s, .error (.MessageError (.UnknownWitness v.author)))
  else if v.author ∈ s.used then
    (s, .error (.MessageError (.WitnessReuse v.author)))
  else
    match v.verify co s.committee with
    | .error e =>
      ({ s with used := v.author :: s.used }, .error (.MessageError e))
    | .ok () =>
      if s.weight + s.committee.votingPower v.author ≥
          s.committee.quorumThreshold then
        ({ s with used := v.author :: s.used,
                  votes := s.votes ++ [(v.author, v.signature)],
                  weight := 0 },
         .ok (some { root := v.root, sequence_number := v.sequence_number,
                     votes := s.votes ++ [(v.author, v.signature)] }))
      else
        ({ s with used := v.author :: s.used,
                  votes := s.votes ++ [(v.author, v.signature)],
                  weight := s.weight + s.committee.votingPower v.author },
         .ok none)

/-- Fold a sequence of `append` calls (discarding the results), for stating
properties about all states reachable from a given one without `reset`. -/
def appendFold (co : CryptoOracle) (s : Aggregator) :
    List PublishVote → Aggregator
  | [] => s
  | v :: vs => appendFold co (Aggregator.append co s v).1 vs

/-- Sum of the committee voting powers of the vote authors (the weight a
certificate carries). -/
def sumPowers (c : Committee) (votes : List (Nat × Nat)) : Nat :=
  (votes.map (fun e => c.votingPower e.1)).sum

/-- Aggregator states reachable through the public interface: freshly
created, reset, or the post-state of any `append` call. -/
inductive AggReachable (co : CryptoOracle) : Aggregator → Prop where
  | new : ∀ c root, AggReachable co (Aggregator.new c root)
  | reset : ∀ s root, AggReachable co s → AggReachable co (s.reset root)
  | step : ∀ s v, AggReachable co s → AggReachable co (Aggregator.append co s v).1

/-- The outcome of the batcher request decoder; `panic` models an
`unwrap()` of `None` aborting the task. -/
inductive DecodeOutcome where
  | ok (label value : Bytes)
  | err
  | panic
deriving DecidableEq

/-- `slice::chunks(2)`: consecutive chunks of two bytes, the last possibly
shorter. -/
def chunksOfTwo : Bytes → List Bytes
  | [] => []
  | [a] => [[a]]
  | a :: b :: rest => [a, b] :: chunksOfTwo rest

/-- `Batcher::deserialize` (src/idp/src/batcher.rs lines 48-57): reject
inputs shorter than 2 bytes, then take the first two chunks of
`bytes.chunks(2)` as label and value (`iter.next().unwrap()` twice — the
second `unwrap` panics when no second chunk exists). The UTF-8 lossy
decoding applied to each chunk is kept at the byte level. -/
def batcherDeserialize (bytes : Bytes) : DecodeOutcome :=
  if bytes.length < 2 then .err
  else
    match chunksOfTwo bytes with
    | key :: value :: _ => .ok key value
    | _ => .panic

/-- Modelled from the spec: the decoder contract of spec §4.6 — "minimum 2
bytes; split into two halves interpreted as UTF-8 label and value" — as a
reference point for comparing `batcherDeserialize` against the
specification (the sibling decoder `deserialize_request` in
src/messages/src/update.rs splits at `len/2 + 1`, approximately halves). -/
def specHalvesDecode (bytes : Bytes) : DecodeOutcome :=
  if bytes.length < 2 then .err
  else .ok (bytes.take (bytes.length / 2)) (bytes.drop (bytes.length / 2))

/-! ### Concrete fixtures

A concrete crypto oracle and the four-witness committee of the test suite
(voting power 1 each, quorum threshold 3), used to instantiate theorems on
concrete inputs. -/

/-- A concrete stand-in for the external crypto library: the digest of
`(root, seq)` is `root + 1000 * seq` and a signature is valid exactly when
it equals `digest + signer`. -/
def testOracle : CryptoOracle :=
  { hash := fun r s => r + 1000 * s
    sigVerify := fun d pk g => g == d + pk
    sign := fun d pk => d + pk }

/-- Four witnesses of voting power 1 (public keys 1-4), IdP key 10;
quorum threshold `2*4/3 + 1 = 3`. -/
def testCommittee : Committee :=
  { identityProvider := 10, witnesses := [(1, 1), (2, 1), (3, 1), (4, 1)] }

/-- A notification for root 7 at sequence number 0, correctly signed by
the test IdP under `testOracle`. -/
def testNotification : PublishNotification :=
  { root := 7, proof := 0, sequence_number := 0, id := 7, signature := 17 }

/-- A conflicting notification for root 9 at sequence number 0, also
correctly signed. -/
def testNotificationConflict : PublishNotification :=
  { root := 9, proof := 0, sequence_number := 0, id := 9, signature := 19 }

/-- The vote of witness 1 for root 7 at sequence 0 (signature
`7 + 1 = 8`). -/
def testVote1 : PublishVote :=
  { root := 7, sequence_number := 0, author := 1, signature := 8 }

/-- The vote of witness 2 for root 7 at sequence 0. -/
def testVote2 : PublishVote :=
  { root := 7, sequence_number := 0, author := 2, signature := 9 }

/-- The vote of witness 3 for root 7 at sequence 0. -/
def testVote3 : PublishVote :=
  { root := 7, sequence_number := 0, author := 3, signature := 10 }

/-- A valid quorum certificate for root 7 at sequence 0 (witnesses 1-3,
weight 3 = quorum threshold). -/
def testCert : PublishCertificate :=
  { root := 7, sequence_number := 0, votes := [(1, 8), (2, 9), (3, 10)] }

/-- Secure storage of a witness that has voted `testVote1` and persisted
the lock. -/
def testSecure0 : Storage :=
  Storage.write [] STORE_LOCK_ADDR (serializeVote testVote1)

/-- Internal invariant of the aggregator: the collected votes have
pairwise-distinct authors, every such author is marked used, and the
weight field matches the summed power of the collected votes — except
after an emission, where the summed power exceeds the weight by at least a
quorum. -/
def AggInv (s : Aggregator) : Prop :=
  (s.votes.map Prod.fst).Nodup ∧
  (∀ a ∈ s.votes.map Prod.fst, a ∈ s.used) ∧
  (sumPowers s.committee s.votes = s.weight ∨
   s.weight + s.committee.quorumThreshold ≤ sumPowers s.committee s.votes)

/-- After the state has emitted a certificate: distinct recorded authors,
all marked used, and the summed power of the collected votes exceeds the
weight by at least one quorum. -/
def AggEmitted (s : Aggregator) : Prop :=
  (s.votes.map Prod.fst).Nodup ∧
  (∀ a ∈ s.votes.map Prod.fst, a ∈ s.used) ∧
  s.weight + s.committee.quorumThreshold ≤ sumPowers s.committee s.votes

/-- The fresh test aggregator targeting root 7. -/
def aggStart : Aggregator := Aggregator.new testCommittee 7

/-- The test aggregator after witness 1's vote. -/
def aggAfter1 : Aggregator := (Aggregator.append testOracle aggStart testVote1).1

/-- The test aggregator after witness 1's and 2's votes. -/
def aggAfter2 : Aggregator := (Aggregator.append testOracle aggAfter1 testVote2).1

/-! ### Claims -/

/-- C10: equality of `PublishVote` values (the Rust `PartialEq`
implementation) ignores the signature — two votes compare equal exactly
when they agree on root, sequence number and author, whatever their
signature fields are. -/
theorem publish_vote_eq_ignores_signature :
    ∀ v w : PublishVote, v.beqRust w = true ↔
      (v.root = w.root ∧ v.sequence_number = w.sequence_number ∧
       v.author = w.author) := by
  intro v w
  simp [PublishVote.beqRust, and_assoc]

/-- C10 witness: two concrete votes differing only in the signature
compare equal. -/
theorem publish_vote_eq_ignores_signature_witness :
    PublishVote.beqRust ⟨5, 6, 7, 8⟩ ⟨5, 6, 7, 9⟩ = true :=
  (publish_vote_eq_ignores_signature ⟨5, 6, 7, 8⟩ ⟨5, 6, 7, 9⟩).mpr
    ⟨rfl, rfl, rfl⟩

/-- C7 counterexample: with empty audit storage, the sync helper sends no
reply at all to a `PublishCertificateQuery` for sequence number 0 — there
is no not-found reply (the reply enum has no such variant), refuting that
every query receives exactly one reply. -/
theorem sync_helper_absent_sends_nothing : syncStep [] 0 = none := rfl

/-- C7 (amended): for every query the sync helper sends at most one reply:
`PublishCertificateResponse` with the stored bytes when the key
`seq.to_le_bytes()` is present in its storage, and no reply at all when it
is absent. -/
theorem sync_helper_reply_characterization :
    ∀ (audit : Storage) (seq : Nat),
      (∀ bytes, audit.read (leBytes 8 seq) = some bytes →
        syncStep audit seq = some (.PublishCertificateResponse bytes)) ∧
      (audit.read (leBytes 8 seq) = none → syncStep audit seq = none) := by
  intro audit seq
  constructor
  · intro bytes h
    unfold syncStep
    rw [h]
  · intro h
    unfold syncStep
    rw [h]

/-- C7 witness: with the bytes `[42]` stored under the key for sequence 0,
the query for sequence 0 is answered with exactly those bytes. -/
theorem sync_helper_reply_characterization_witness :
    syncStep (Storage.write [] (leBytes 8 0) [42]) 0 =
      some (.PublishCertificateResponse [42]) :=
  (sync_helper_reply_characterization (Storage.write [] (leBytes 8 0) [42]) 0).1
    [42] rfl

/-- C8 (code bug): on the 6-byte request `aaabbb` the batcher decoder
returns the first two 2-byte chunks `(aa, ab)` instead of the two halves
`(aaa, bbb)` required by the decoder contract, and on a 2-byte request —
which the contract admits ("minimum 2 bytes") — the second
`iter.next().unwrap()` panics, aborting the batcher task. -/
theorem batcher_deserialize_divergence :
    batcherDeserialize [97, 97, 97, 98, 98, 98] = .ok [97, 97] [97, 98] ∧
    batcherDeserialize [97, 97, 97, 98, 98, 98] ≠
      specHalvesDecode [97, 97, 97, 98, 98, 98] ∧
    specHalvesDecode [97, 97, 97, 98, 98, 98] = .ok [97, 97, 97] [98, 98, 98] ∧
    batcherDeserialize [97, 98] = .panic := by
  decide

/-- C1: a witness whose lock holds vote `v` at its current sequence
number, receiving a verifying notification for the same sequence number
but a different root, answers `ConflictingNotification(v.root, n.root)`;
no vote is produced and neither the in-memory state (lock and sequence
number) nor the storage changes. -/
theorem make_vote_conflicting_notification :
    ∀ (co : CryptoOracle) (cmt : Committee) (author : Nat)
      (st : HandlerState) (secure : Storage) (n : PublishNotification)
      (v : PublishVote),
      st.lock = some v →
      n.verify co cmt = .ok () →
      n.sequence_number = st.sequenceNumber →
      v.root ≠ n.root →
      makeVote co cmt author st n =
        .error (.ConflictingNotification v.root n.root) ∧
      handleNotification co cmt author st secure n =
        (st, secure, .error (.ConflictingNotification v.root n.root)) := by
  intro co cmt author st secure n v hlock hver hseq hroot
  have hmv : makeVote co cmt author st n =
      .error (.ConflictingNotification v.root n.root) := by
    unfold makeVote
    rw [hver, hseq, hlock]
    simp [hroot]
  refine ⟨hmv, ?_⟩
  unfold handleNotification
  rw [hmv]

/-- C1 witness: witness 1 at sequence 0 locked on `testVote1` (root 7)
refuses the verifying notification for root 9 with
`ConflictingNotification(7, 9)` and keeps its state. -/
theorem make_vote_conflicting_notification_witness :
    makeVote testOracle testCommittee 1
        { sequenceNumber := 0, lock := some testVote1 }
        testNotificationConflict =
      .error (.ConflictingNotification 7 9) ∧
    handleNotification testOracle testCommittee 1
        { sequenceNumber := 0, lock := some testVote1 } testSecure0
        testNotificationConflict =
      ({ sequenceNumber := 0, lock := some testVote1 }, testSecure0,
       .error (.ConflictingNotification 7 9)) :=
  make_vote_conflicting_notification testOracle testCommittee 1
    { sequenceNumber := 0, lock := some testVote1 } testSecure0
    testNotificationConflict testVote1 rfl rfl rfl (by decide)

/-- Overwriting a key with the value it already holds is idempotent. -/
theorem Storage.write_write_same (s : Storage) (k v : Bytes) :
    (s.write k v).write k v = s.write k v := by
  unfold Storage.write
  simp [List.filter_filter]

/-- A successful `make_vote` implies: the notification verified, the
sequence numbers matched, and the returned vote is for the notification
root. -/
theorem makeVote_ok_facts (co : CryptoOracle) (cmt : Committee)
    (author : Nat) (st : HandlerState) (n : PublishNotification)
    (v : PublishVote) (h : makeVote co cmt author st n = .ok v) :
    n.verify co cmt = .ok () ∧ st.sequenceNumber = n.sequence_number ∧
      v.root = n.root := by
  unfold makeVote at h
  split at h
  next e heq => exact Except.noConfusion h
  next u heq =>
    split at h
    next hne => exact Except.noConfusion h
    next hne =>
      refine ⟨heq, not_ne_iff.mp hne, ?_⟩
      split at h
      next vote hlock =>
        split at h
        next hr =>
          injection h with h
          exact h ▸ hr
        next hr => exact Except.noConfusion h
      next hlock =>
        injection h with h
        rw [← h]
        rfl

/-- A witness locked on a vote for the notification root re-issues exactly
that vote. -/
theorem makeVote_locked_same_root (co : CryptoOracle) (cmt : Committee)
    (author : Nat) (st : HandlerState) (n : PublishNotification)
    (v : PublishVote) (hver : n.verify co cmt = .ok ())
    (hseq : st.sequenceNumber = n.sequence_number)
    (hlock : st.lock = some v) (hroot : v.root = n.root) :
    makeVote co cmt author st n = .ok v := by
  unfold makeVote
  rw [hver, hlock]
  simp [hseq, hroot]

/-- C3: voting is idempotent — if handling a verifying notification
produced the vote `v1` (now the stored lock), handling the very same
notification again returns the same vote `v1` (hence byte-for-byte equal
serialized reply bytes) and leaves both the in-memory state and the
storage exactly as they were after the first call. -/
theorem revote_idempotent :
    ∀ (co : CryptoOracle) (cmt : Committee) (author : Nat)
      (st : HandlerState) (secure : Storage) (n : PublishNotification)
      (st1 : HandlerState) (sec1 : Storage) (v1 : PublishVote),
      handleNotification co cmt author st secure n = (st1, sec1, .ok v1) →
      handleNotification co cmt author st1 sec1 n = (st1, sec1, .ok v1) ∧
      serializeVote v1 = serializeVote v1 := by
  intro co cmt author st secure n st1 sec1 v1 h
  unfold handleNotification at h
  cases hm : makeVote co cmt author st n with
  | error e =>
    rw [hm] at h
    simp only [Prod.mk.injEq] at h
    exact Except.noConfusion h.2.2
  | ok vote =>
    rw [hm] at h
    simp only [Prod.mk.injEq] at h
    obtain ⟨h1, h2, h3⟩ := h
    injection h3 with h3
    subst h1
    subst h2
    rw [← h3]
    obtain ⟨hver, hseq, hroot⟩ := makeVote_ok_facts co cmt author st n vote hm
    refine ⟨?_, rfl⟩
    unfold handleNotification
    have hmv2 : makeVote co cmt author
        { st with lock := some vote } n = .ok vote :=
      makeVote_locked_same_root co cmt author
        { st with lock := some vote } n vote hver hseq rfl hroot
    rw [hmv2]
    simp [Storage.write_write_same]

/-- C3 witness: starting unlocked at sequence 0, the first handling of
`testNotification` yields witness 1's vote and the second handling yields
the identical vote and state. -/
theorem revote_idempotent_witness :
    handleNotification testOracle testCommittee 1
        { sequenceNumber := 0, lock := some testVote1 } testSecure0
        testNotification =
      ({ sequenceNumber := 0, lock := some testVote1 }, testSecure0,
       .ok testVote1) :=
  (revote_idempotent testOracle testCommittee 1
    { sequenceNumber := 0, lock := none } [] testNotification
    { sequenceNumber := 0, lock := some testVote1 } testSecure0 testVote1
    rfl).1

/-- C2: for a verifying certificate `c` — when `c.sequence_number` equals
the witness's current sequence number, processing advances the sequence
number by exactly 1 and clears the lock (with a success reply); when it is
strictly smaller, state and storage are left unchanged (already
processed); when it is strictly greater, processing fails with
`MissingEarlierCertificates(current)` and state and storage are
unchanged. -/
theorem process_certificate_cases :
    ∀ (co : CryptoOracle) (cmt : Committee) (st : HandlerState)
      (secure : Storage) (c : PublishCertificate),
      c.verify co cmt = .ok () →
      (st.sequenceNumber = c.sequence_number →
        (handleCertificate co cmt st secure c).1 =
          { sequenceNumber := st.sequenceNumber + 1, lock := none } ∧
        (handleCertificate co cmt st secure c).2.2 = .ok ()) ∧
      (c.sequence_number < st.sequenceNumber →
        handleCertificate co cmt st secure c = (st, secure, .ok ())) ∧
      (st.sequenceNumber < c.sequence_number →
        handleCertificate co cmt st secure c =
          (st, secure,
           .error (.MissingEarlierCertificates st.sequenceNumber))) := by
  intro co cmt st secure c hver
  unfold handleCertificate processCertificate
  rw [hver]
  refine ⟨?_, ?_, ?_⟩
  · intro heq
    rw [if_pos (le_of_eq heq.symm), if_pos heq]
    exact ⟨rfl, rfl⟩
  · intro hlt
    have hge : st.sequenceNumber ≥ c.sequence_number := Nat.le_of_lt hlt
    have hne : st.sequenceNumber ≠ c.sequence_number := by omega
    rw [if_pos hge, if_neg hne]
  · intro hlt
    have hnge : ¬st.sequenceNumber ≥ c.sequence_number := by omega
    rw [if_neg hnge]

/-- C2 witness: a witness at sequence 0 finalizing the valid `testCert`
(sequence 0) moves to sequence 1 with a cleared lock, and a witness at
sequence 2 receiving `testCert` is unchanged, while a witness at sequence
0 receiving a certificate for sequence 1 would be refused (shown here via
the strictly-smaller case at sequence 2). -/
theorem process_certificate_cases_witness :
    ((handleCertificate testOracle testCommittee
        { sequenceNumber := 0, lock := some testVote1 } testSecure0
        testCert).1 =
      { sequenceNumber := 1, lock := none }) ∧
    handleCertificate testOracle testCommittee
        { sequenceNumber := 2, lock := none } testSecure0 testCert =
      ({ sequenceNumber := 2, lock := none }, testSecure0, .ok ()) := by
  have h0 := process_certificate_cases testOracle testCommittee
    { sequenceNumber := 0, lock := some testVote1 } testSecure0 testCert rfl
  have h2 := process_certificate_cases testOracle testCommittee
    { sequenceNumber := 2, lock := none } testSecure0 testCert rfl
  exact ⟨(h0.1 rfl).1, h2.2.1 (by decide)⟩

/-- C5 (code bug): finalizing a certificate persists the cleared lock as
the empty byte string, which the startup path cannot deserialize — the
state written after finalization is not read back: `loadState` panics
(`none`). The locked state, by contrast, does round-trip, pinning the
failure to the cleared-lock write (`&Vec::default()` instead of a
serialized `Option<PublishVote>`). -/
theorem restart_after_finalize_panics :
    (handleCertificate testOracle testCommittee
        { sequenceNumber := 0, lock := some testVote1 } testSecure0
        testCert).2.2 = .ok () ∧
    (handleCertificate testOracle testCommittee
        { sequenceNumber := 0, lock := some testVote1 } testSecure0
        testCert).1 = { sequenceNumber := 1, lock := none } ∧
    ((handleCertificate testOracle testCommittee
        { sequenceNumber := 0, lock := some testVote1 } testSecure0
        testCert).2.1).read STORE_LOCK_ADDR = some [] ∧
    deserializeVote [] = none ∧
    loadState ((handleCertificate testOracle testCommittee
        { sequenceNumber := 0, lock := some testVote1 } testSecure0
        testCert).2.1) = none ∧
    loadState testSecure0 =
      some { sequenceNumber := 0, lock := some testVote1 } :=
  ⟨rfl, rfl, rfl, rfl, rfl, rfl⟩

/-- C6 (code bug): a witness at sequence 0 finalizing the valid `testCert`
(sequence 0) advances its secure state but writes nothing to the audit
storage: the audit storage is left exactly as before (here: empty), the
key `(0u64).to_le_bytes()` holds no certificate, and a later
`PublishCertificateQuery` for sequence 0 finds nothing (no reply). -/
theorem certificate_not_archived :
    witnessStepCertificate testOracle testCommittee
        { sequenceNumber := 0, lock := some testVote1 } testSecure0 []
        testCert =
      ({ sequenceNumber := 1, lock := none },
       (testSecure0.write STORE_SEQ_ADDR (leBytes 8 1)).write
         STORE_LOCK_ADDR [],
       [], .ok ()) ∧
    ((witnessStepCertificate testOracle testCommittee
        { sequenceNumber := 0, lock := some testVote1 } testSecure0 []
        testCert).2.2.1).read (leBytes 8 0) = none ∧
    syncStep ((witnessStepCertificate testOracle testCommittee
        { sequenceNumber := 0, lock := some testVote1 } testSecure0 []
        testCert).2.2.1) 0 = none :=
  ⟨rfl, rfl, rfl⟩

/-- `append` never changes the aggregator's committee. -/
theorem append_committee (co : CryptoOracle) (s : Aggregator)
    (v : PublishVote) :
    (Aggregator.append co s v).1.committee = s.committee := by
  unfold Aggregator.append
  split
  · rfl
  · split
    · rfl
    · split
      · rfl
      · split
        · rfl
        · split
          · rfl
          · rfl

/-- `append` never changes the aggregator's target root. -/
theorem append_root (co : CryptoOracle) (s : Aggregator)
    (v : PublishVote) :
    (Aggregator.append co s v).1.root = s.root := by
  unfold Aggregator.append
  split
  · rfl
  · split
    · rfl
    · split
      · rfl
      · split
        · rfl
        · split
          · rfl
          · rfl

/-- `append` only grows the `used` set. -/
theorem append_used_mono (co : CryptoOracle) (s : Aggregator)
    (v : PublishVote) (a : Nat) (h : a ∈ s.used) :
    a ∈ (Aggregator.append co s v).1.used := by
  unfold Aggregator.append
  split
  · exact h
  · split
    · exact h
    · split
      · exact h
      · split
        · exact List.mem_cons_of_mem _ h
        · split
          · exact List.mem_cons_of_mem _ h
          · exact List.mem_cons_of_mem _ h

/-- `appendFold` never changes the committee. -/
theorem appendFold_committee (co : CryptoOracle) (vs : List PublishVote) :
    ∀ s : Aggregator, (appendFold co s vs).committee = s.committee := by
  induction vs with
  | nil => intro s; rfl
  | cons v vs ih =>
    intro s
    calc (appendFold co (Aggregator.append co s v).1 vs).committee
        = (Aggregator.append co s v).1.committee := ih _
      _ = s.committee := append_committee co s v

/-- `appendFold` never changes the target root. -/
theorem appendFold_root (co : CryptoOracle) (vs : List PublishVote) :
    ∀ s : Aggregator, (appendFold co s vs).root = s.root := by
  induction vs with
  | nil => intro s; rfl
  | cons v vs ih =>
    intro s
    calc (appendFold co (Aggregator.append co s v).1 vs).root
        = (Aggregator.append co s v).1.root := ih _
      _ = s.root := append_root co s v

/-- `appendFold` only grows the `used` set. -/
theorem appendFold_used_mono (co : CryptoOracle) (vs : List PublishVote) :
    ∀ (s : Aggregator) (a : Nat), a ∈ s.used →
      a ∈ (appendFold co s vs).used := by
  induction vs with
  | nil => intro s a h; exact h
  | cons v vs ih =>
    intro s a h
    exact ih _ a (append_used_mono co s v a h)

/-- Appending a vote of an already-used author fails with `WitnessReuse`
and leaves the aggregator unchanged (provided the root matches and the
author is a committee member). -/
theorem append_used_author_reuse (co : CryptoOracle) (s : Aggregator)
    (w : PublishVote) (hroot : s.root = w.root)
    (hpow : s.committee.votingPower w.author ≠ 0)
    (hused : w.author ∈ s.used) :
    Aggregator.append co s w =
      (s, .error (.MessageError (.WitnessReuse w.author))) := by
  unfold Aggregator.append
  rw [if_neg (not_not_intro hroot), if_neg hpow, if_pos hused]

/-- C9: when `append` rejects a vote only because its signature fails to
verify (root, committee membership and freshness checks all passed), the
author is nevertheless recorded in the `used` set while `weight` and
`votes` stay unchanged — so every later `append` of a vote from that same
author for this root, however correctly signed, fails with `WitnessReuse`
(leaving the aggregator unchanged) and can never contribute to a quorum
until `reset`. -/
theorem failed_signature_poisons_author :
    ∀ (co : CryptoOracle) (s : Aggregator) (v : PublishVote),
      s.root = v.root →
      s.committee.votingPower v.author ≠ 0 →
      v.author ∉ s.used →
      co.sigVerify (co.hash v.root v.sequence_number) v.author v.signature
        = false →
      (Aggregator.append co s v).2 =
        .error (.MessageError .InvalidSignature) ∧
      (Aggregator.append co s v).1.used = v.author :: s.used ∧
      (Aggregator.append co s v).1.weight = s.weight ∧
      (Aggregator.append co s v).1.votes = s.votes ∧
      (∀ (vs : List PublishVote) (w : PublishVote),
        w.author = v.author → w.root = s.root →
        Aggregator.append co (appendFold co (Aggregator.append co s v).1 vs) w
          = (appendFold co (Aggregator.append co s v).1 vs,
             .error (.MessageError (.WitnessReuse w.author)))) := by
  intro co s v hroot hpow hfresh hsig
  have hstep : Aggregator.append co s v =
      ({ s with used := v.author :: s.used },
       .error (.MessageError .InvalidSignature)) := by
    unfold Aggregator.append
    rw [if_neg (not_not_intro hroot), if_neg hpow, if_neg hfresh]
    have hv : PublishVote.verify co s.committee v = .error .InvalidSignature := by
      unfold PublishVote.verify
      rw [if_neg hpow, hsig]
      simp
    rw [hv]
  refine ⟨by rw [hstep], by rw [hstep], by rw [hstep], by rw [hstep], ?_⟩
  intro vs w hauthor hwroot
  apply append_used_author_reuse
  · rw [appendFold_root, hstep, hwroot]
  · rw [appendFold_committee, hstep, hauthor]
    exact hpow
  · apply appendFold_used_mono
    rw [hstep, hauthor]
    exact List.mem_cons_self _ _

/-- C9 witness: witness 1's badly-signed vote (signature 999) is rejected
with `InvalidSignature`, yet after a further valid vote from witness 2,
witness 1's correctly signed vote is refused with `WitnessReuse`. -/
theorem failed_signature_poisons_author_witness :
    (Aggregator.append testOracle
        (Aggregator.new testCommittee 7)
        { root := 7, sequence_number := 0, author := 1, signature := 999 }).2
      = .error (.MessageError .InvalidSignature) ∧
    Aggregator.append testOracle
        (appendFold testOracle
          (Aggregator.append testOracle (Aggregator.new testCommittee 7)
            { root := 7, sequence_number := 0, author := 1,
              signature := 999 }).1
          [testVote2]) testVote1
      = (appendFold testOracle
          (Aggregator.append testOracle (Aggregator.new testCommittee 7)
            { root := 7, sequence_number := 0, author := 1,
              signature := 999 }).1
          [testVote2],
         .error (.MessageError (.WitnessReuse 1))) := by
  have h := failed_signature_poisons_author testOracle
    (Aggregator.new testCommittee 7)
    { root := 7, sequence_number := 0, author := 1, signature := 999 }
    rfl (by decide) (by decide) rfl
  exact ⟨h.1, h.2.2.2.2 [testVote2] testVote1 rfl rfl⟩

/-- Summing a key-value lookup (first match, default 0) over
duplicate-free keys is bounded by the sum of all stored values. -/
theorem sum_lookup_le (ws : List (Nat × Nat)) :
    ∀ authors : List Nat, authors.Nodup →
      (authors.map (fun a =>
        (((ws.find? (fun e => e.1 == a)).map (fun e => e.2)).getD 0))).sum
        ≤ (ws.map (fun e => e.2)).sum := by
  induction ws with
  | nil =>
    intro authors _
    simp [List.find?]
  | cons hd rest ih =>
    obtain ⟨k, p⟩ := hd
    intro authors hnd
    have hf_ne : ∀ a, a ≠ k →
        ((((k, p) :: rest).find? (fun e => e.1 == a)).map
          (fun e => e.2)).getD 0 =
        ((rest.find? (fun e => e.1 == a)).map (fun e => e.2)).getD 0 := by
      intro a ha
      rw [List.find?_cons_of_neg rest (by simpa using Ne.symm ha)]
    have hf_k :
        ((((k, p) :: rest).find? (fun e => e.1 == k)).map
          (fun e => e.2)).getD 0 = p := by
      rw [List.find?_cons_of_pos rest (by simp)]
      rfl
    by_cases hk : k ∈ authors
    · have hperm := List.perm_cons_erase hk
      have hmap := hperm.map (fun a =>
        (((((k, p) :: rest)).find? (fun e => e.1 == a)).map
          (fun e => e.2)).getD 0)
      rw [hmap.sum_eq]
      have herase : (authors.erase k).map (fun a =>
          ((((k, p) :: rest).find? (fun e => e.1 == a)).map
            (fun e => e.2)).getD 0) =
          (authors.erase k).map (fun a =>
          ((rest.find? (fun e => e.1 == a)).map (fun e => e.2)).getD 0) :=
        List.map_congr_left (fun a ha =>
          hf_ne a ((hnd.mem_erase_iff.mp ha).1))
      simp only [List.map_cons, List.sum_cons, hf_k, herase]
      have := ih (authors.erase k) (hnd.erase k)
      simpa using Nat.add_le_add_left this p
    · have hcongr : authors.map (fun a =>
          ((((k, p) :: rest).find? (fun e => e.1 == a)).map
            (fun e => e.2)).getD 0) =
          authors.map (fun a =>
          ((rest.find? (fun e => e.1 == a)).map (fun e => e.2)).getD 0) :=
        List.map_congr_left (fun a ha =>
          hf_ne a (fun h => hk (h ▸ ha)))
      rw [hcongr]
      calc (authors.map (fun a =>
            ((rest.find? (fun e => e.1 == a)).map (fun e => e.2)).getD 0)).sum
          ≤ (rest.map (fun e => e.2)).sum := ih authors hnd
        _ ≤ (((k, p) :: rest).map (fun e => e.2)).sum := by
            simp [Nat.le_add_left]

/-- The summed voting power of distinct authors never exceeds the
committee's total power. -/
theorem sum_votingPower_le_totalPower (c : Committee) (authors : List Nat)
    (h : authors.Nodup) :
    (authors.map c.votingPower).sum ≤ c.totalPower :=
  sum_lookup_le c.witnesses authors h

/-- `sumPowers` through the author projection. -/
theorem sumPowers_eq_map_authors (c : Committee)
    (votes : List (Nat × Nat)) :
    sumPowers c votes = ((votes.map Prod.fst).map c.votingPower).sum := by
  simp [sumPowers, List.map_map, Function.comp_def]

/-- `sumPowers` over an extended vote list. -/
theorem sumPowers_append (c : Committee) (votes : List (Nat × Nat))
    (a g : Nat) :
    sumPowers c (votes ++ [(a, g)]) = sumPowers c votes + c.votingPower a := by
  simp [sumPowers]

/-- A fresh aggregator satisfies the invariant. -/
theorem aggInv_new (c : Committee) (root : Nat) :
    AggInv (Aggregator.new c root) := by
  refine ⟨List.nodup_nil, ?_, Or.inl ?_⟩ <;>
    simp [Aggregator.new, sumPowers]

/-- A reset aggregator satisfies the invariant. -/
theorem aggInv_reset (s : Aggregator) (root : Nat) :
    AggInv (s.reset root) := by
  refine ⟨List.nodup_nil, ?_, Or.inl ?_⟩ <;>
    simp [Aggregator.reset, sumPowers]

/-- `append` preserves the aggregator invariant. -/
theorem aggInv_append (co : CryptoOracle) (s : Aggregator)
    (v : PublishVote) (h : AggInv s) :
    AggInv (Aggregator.append co s v).1 := by
  obtain ⟨hnd, hsub, hw⟩ := h
  unfold Aggregator.append
  split
  · exact ⟨hnd, hsub, hw⟩
  · split
    · exact ⟨hnd, hsub, hw⟩
    · split
      · exact ⟨hnd, hsub, hw⟩
      · rename_i hroot hpow hfresh
        split
        · exact ⟨hnd, fun a ha => List.mem_cons_of_mem _ (hsub a ha), hw⟩
        · rename_i u hverify
          have hnotin : v.author ∉ s.votes.map Prod.fst :=
            fun hmem => hfresh (hsub _ hmem)
          have hnd2 : ((s.votes ++ [(v.author, v.signature)]).map
              Prod.fst).Nodup := by
            simp only [List.map_append, List.map_cons, List.map_nil]
            simp [List.nodup_append, hnd, hnotin]
          have hsub2 : ∀ a ∈ (s.votes ++ [(v.author, v.signature)]).map
              Prod.fst, a ∈ v.author :: s.used := by
            intro a ha
            simp only [List.map_append, List.map_cons, List.map_nil,
              List.mem_append, List.mem_cons, List.not_mem_nil,
              or_false] at ha
            rcases ha with ha | ha
            · exact List.mem_cons_of_mem _ (hsub a ha)
            · exact ha ▸ List.mem_cons_self _ _
          split
          · rename_i hq
            refine ⟨hnd2, hsub2, Or.inr ?_⟩
            show 0 + s.committee.quorumThreshold ≤
              sumPowers s.committee (s.votes ++ [(v.author, v.signature)])
            rw [sumPowers_append]
            rcases hw with hw | hw
            · omega
            · omega
          · rename_i hq
            refine ⟨hnd2, hsub2, ?_⟩
            rcases hw with hw | hw
            · refine Or.inl ?_
              show sumPowers s.committee
                  (s.votes ++ [(v.author, v.signature)]) =
                s.weight + s.committee.votingPower v.author
              rw [sumPowers_append]
              omega
            · refine Or.inr ?_
              show s.weight + s.committee.votingPower v.author +
                  s.committee.quorumThreshold ≤
                sumPowers s.committee (s.votes ++ [(v.author, v.signature)])
              rw [sumPowers_append]
              omega

/-- Every aggregator state reachable through the public interface
satisfies the invariant. -/
theorem reachable_aggInv (co : CryptoOracle) (s : Aggregator)
    (h : AggReachable co s) : AggInv s := by
  induction h with
  | new c root => exact aggInv_new c root
  | reset t root _ _ => exact aggInv_reset t root
  | step t v _ ih => exact aggInv_append co t v ih

/-- The Byzantine quorum threshold exceeds half the total power, so two
disjoint quorums cannot fit in one committee. -/
theorem total_lt_two_quorum (c : Committee) :
    c.totalPower < 2 * c.quorumThreshold := by
  unfold Committee.quorumThreshold
  omega

/-- Once in the post-emission state, `append` can never emit again, and
the post-emission state persists. -/
theorem emitted_step (co : CryptoOracle) (s : Aggregator) (v : PublishVote)
    (h : AggEmitted s) :
    AggEmitted (Aggregator.append co s v).1 ∧
    ∀ cert, (Aggregator.append co s v).2 ≠ .ok (some cert) := by
  obtain ⟨hnd, hsub, hsum⟩ := h
  unfold Aggregator.append
  split
  · exact ⟨⟨hnd, hsub, hsum⟩, fun cert hc => Except.noConfusion hc⟩
  · split
    · exact ⟨⟨hnd, hsub, hsum⟩, fun cert hc => Except.noConfusion hc⟩
    · split
      · exact ⟨⟨hnd, hsub, hsum⟩, fun cert hc => Except.noConfusion hc⟩
      · rename_i hroot hpow hfresh
        have hnotin : v.author ∉ s.votes.map Prod.fst :=
          fun hm => hfresh (hsub _ hm)
        have hnd2 : ((s.votes ++ [(v.author, v.signature)]).map
            Prod.fst).Nodup := by
          simp only [List.map_append, List.map_cons, List.map_nil]
          simp [List.nodup_append, hnd, hnotin]
        have hsub2 : ∀ a ∈ (s.votes ++ [(v.author, v.signature)]).map
            Prod.fst, a ∈ v.author :: s.used := by
          intro a ha
          simp only [List.map_append, List.map_cons, List.map_nil,
            List.mem_append, List.mem_cons, List.not_mem_nil,
            or_false] at ha
          rcases ha with ha | ha
          · exact List.mem_cons_of_mem _ (hsub a ha)
          · exact ha ▸ List.mem_cons_self _ _
        split
        · exact ⟨⟨hnd, fun a ha => List.mem_cons_of_mem _ (hsub a ha),
            hsum⟩, fun cert hc => Except.noConfusion hc⟩
        · rename_i u hverify
          split
          · rename_i hq
            exfalso
            have hb : sumPowers s.committee s.votes +
                s.committee.votingPower v.author ≤
                s.committee.totalPower := by
              have h2 := sum_votingPower_le_totalPower s.committee
                ((s.votes ++ [(v.author, v.signature)]).map Prod.fst) hnd2
              rw [← sumPowers_eq_map_authors, sumPowers_append] at h2
              exact h2
            have htot := total_lt_two_quorum s.committee
            omega
          · rename_i hq
            refine ⟨⟨hnd2, hsub2, ?_⟩, ?_⟩
            · show s.weight + s.committee.votingPower v.author +
                  s.committee.quorumThreshold ≤
                sumPowers s.committee (s.votes ++ [(v.author, v.signature)])
              rw [sumPowers_append]
              omega
            · intro cert hc
              injection hc with hc
              exact Option.noConfusion hc

/-- The post-emission state persists through any sequence of `append`
calls. -/
theorem emitted_fold (co : CryptoOracle) (vs : List PublishVote) :
    ∀ s : Aggregator, AggEmitted s → AggEmitted (appendFold co s vs) := by
  induction vs with
  | nil => intro s h; exact h
  | cons v vs ih =>
    intro s h
    exact ih _ (emitted_step co s v h).1

/-- Dissection of an emitting `append` call: all four checks passed, the
quorum condition held, and the certificate and post-state have the stated
shapes. -/
theorem append_some_dissect (co : CryptoOracle) (s : Aggregator)
    (v : PublishVote) (s' : Aggregator) (cert : PublishCertificate)
    (h : Aggregator.append co s v = (s', .ok (some cert))) :
    s.root = v.root ∧ s.committee.votingPower v.author ≠ 0 ∧
    v.author ∉ s.used ∧
    s.committee.quorumThreshold ≤
      s.weight + s.committee.votingPower v.author ∧
    cert = { root := v.root, sequence_number := v.sequence_number,
             votes := s.votes ++ [(v.author, v.signature)] } ∧
    s' = { s with used := v.author :: s.used,
                  votes := s.votes ++ [(v.author, v.signature)],
                  weight := 0 } := by
  unfold Aggregator.append at h
  split at h
  · simp at h
  · split at h
    · simp at h
    · split at h
      · simp at h
      · rename_i hroot hpow hfresh
        split at h
        · simp at h
        · rename_i u hverify
          split at h
          · rename_i hq
            simp only [Prod.mk.injEq] at h
            obtain ⟨h1, h2⟩ := h
            injection h2 with h2
            injection h2 with h2
            exact ⟨not_not.mp hroot, hpow, hfresh, hq, h2.symm, h1.symm⟩
          · simp at h

/-- C4: every certificate the aggregator emits carries pairwise-distinct
authors whose summed voting power reaches the quorum threshold, the
aggregator's target root, and the sequence number of the
quorum-completing vote; and once a certificate has been emitted, no later
`append` (before a `reset`) can ever return another certificate. -/
theorem aggregator_certificate_sound :
    ∀ (co : CryptoOracle) (s : Aggregator), AggReachable co s →
      ∀ (v : PublishVote) (s' : Aggregator) (cert : PublishCertificate),
        Aggregator.append co s v = (s', .ok (some cert)) →
        (cert.votes.map Prod.fst).Nodup ∧
        s.committee.quorumThreshold ≤ sumPowers s.committee cert.votes ∧
        cert.root = s.root ∧
        cert.sequence_number = v.sequence_number ∧
        ∀ (vs : List PublishVote) (w : PublishVote)
          (cert2 : PublishCertificate),
          (Aggregator.append co (appendFold co s' vs) w).2 ≠
            .ok (some cert2) := by
  intro co s hre v s' cert happ
  obtain ⟨hnd, hsub, hw⟩ := reachable_aggInv co s hre
  obtain ⟨hroot, hpow, hfresh, hq, hcert, hs1⟩ :=
    append_some_dissect co s v s' cert happ
  have hnotin : v.author ∉ s.votes.map Prod.fst :=
    fun hm => hfresh (hsub _ hm)
  have hnd2 : ((s.votes ++ [(v.author, v.signature)]).map Prod.fst).Nodup := by
    simp only [List.map_append, List.map_cons, List.map_nil]
    simp [List.nodup_append, hnd, hnotin]
  have hsum2 : s.committee.quorumThreshold ≤
      sumPowers s.committee (s.votes ++ [(v.author, v.signature)]) := by
    rw [sumPowers_append]
    rcases hw with hw | hw <;> omega
  have hemit : AggEmitted s' := by
    rw [hs1]
    refine ⟨hnd2, ?_, ?_⟩
    · intro a ha
      simp only [List.map_append, List.map_cons, List.map_nil,
        List.mem_append, List.mem_cons, List.not_mem_nil, or_false] at ha
      rcases ha with ha | ha
      · exact List.mem_cons_of_mem _ (hsub a ha)
      · exact ha ▸ List.mem_cons_self _ _
    · show 0 + s.committee.quorumThreshold ≤
        sumPowers s.committee (s.votes ++ [(v.author, v.signature)])
      omega
  refine ⟨?_, ?_, ?_, ?_, ?_⟩
  · rw [hcert]
    exact hnd2
  · rw [hcert]
    exact hsum2
  · rw [hcert, hroot]
  · rw [hcert]
  · intro vs w cert2
    exact (emitted_step co (appendFold co s' vs) w
      (emitted_fold co vs s' hemit)).2 cert2

/-- C4 witness: after the votes of witnesses 1-3, the aggregator emits
exactly `testCert`, whose three authors are distinct and carry voting
power 3 = quorum threshold. -/
theorem aggregator_certificate_sound_witness :
    (testCert.votes.map Prod.fst).Nodup ∧
    testCommittee.quorumThreshold ≤ sumPowers testCommittee testCert.votes ∧
    testCert.root = 7 ∧
    testCert.sequence_number = 0 := by
  have h := aggregator_certificate_sound testOracle aggAfter2
    (AggReachable.step aggStart testVote1
      (AggReachable.new testCommittee 7)
      |> AggReachable.step aggAfter1 testVote2)
    testVote3 (Aggregator.append testOracle aggAfter2 testVote3).1 testCert
    rfl
  exact ⟨h.1, h.2.1, h.2.2.1, h.2.2.2.1⟩

end KeyTransparency
